import Mathlib

/-!
Verification of the edit-operation engine of a single-sequence FASTA editor.

The engine lives in main.rs: `complement_base` maps a nucleotide character to
its Watson-Crick complement, and `apply_operation` dispatches on an `Operation`
variant, producing a new header (with an appended provenance note) and a new
sequence.  The Rust code terminates the process on an out-of-range coordinate;
here that outcome is modelled as an `Except` error carrying the same data the
error message carries (the offending field, the coordinate and the sequence
length).  Sequences are ASCII nucleotide strings, modelled as `List Char`
(byte slicing and char iteration coincide on ASCII).
-/

/-- Watson-Crick complement of one base, from `complement_base` in main.rs:
match on the ASCII-uppercased character; A↔T, C↔G, N↦N, anything else is
returned unchanged. -/
def complement_base (base : Char) : Char :=
  let u := base.toUpper
  if u = 'A' then 'T'
  else if u = 'T' then 'A'
  else if u = 'C' then 'G'
  else if u = 'G' then 'C'
  else if u = 'N' then 'N'
  else base

/-- The operation variants of the `Operation` enum in main.rs.  All numeric
fields are 1-based positions; `end` is a Lean keyword so that field is named
`endPos`.  `gend` is the `u8` field holding 5 or 3. -/
inductive Operation where
  | Delete (start : Nat) (endPos : Nat)
  | Insert (position : Nat) (sequence : List Char)
  | Invert (start : Nat) (endPos : Nat) (complement : Bool)
  | Duplicate (start : Nat) (endPos : Nat) (position : Nat)
  | TandemDuplicate (start : Nat) (endPos : Nat)
  | Copyback (gend : Nat) (breakpoint : Nat) (backstart : Nat)
deriving Repr, DecidableEq

/-- The error the Rust code reports (via eprintln + exit) when a coordinate
would index past the sequence end: the field named in the message, the 1-based
coordinate printed, and the sequence length printed. -/
inductive ApplyError where
  | outOfRange (field : String) (coord : Nat) (len : Nat)
deriving Repr, DecidableEq

/-- Rust sliceRange `&sequence[i..j]` on an ASCII string, as a list. -/
def sliceRange (s : List Char) (i j : Nat) : List Char :=
  (s.drop i).take (j - i)

/-- Shallow embedding of `apply_operation` from main.rs.  Each arm converts
1-based coordinates to 0-based indices, bounds-checks exactly where the Rust
code does, builds the new sequence by the same slicing, and appends the same
bracketed provenance to the header. -/
def apply_operation (header : String) (sequence : List Char) (operation : Operation) :
    Except ApplyError (String × List Char) :=
  match operation with
  | .Delete start endPos =>
      let start_idx := start - 1
      let end_idx := endPos
      if end_idx > sequence.length then
        .error (.outOfRange "End position" endPos sequence.length)
      else
        let new_sequence := sequence.take start_idx ++ sequence.drop end_idx
        let deleted_length := end_idx - start_idx
        let new_header := header ++ " [deleted " ++ toString deleted_length ++
          "bp at positions " ++ toString start ++ "-" ++ toString endPos ++ "]"
        .ok (new_header, new_sequence)
  | .Insert position insert_seq =>
      let insert_idx := position - 1
      if insert_idx > sequence.length then
        .error (.outOfRange "Insert position" position sequence.length)
      else
        let new_sequence := sequence.take insert_idx ++ insert_seq ++ sequence.drop insert_idx
        let new_header := header ++ " [inserted " ++ toString insert_seq.length ++
          "bp \x27" ++ String.mk insert_seq ++ "\x27 at position " ++ toString position ++ "]"
        .ok (new_header, new_sequence)
  | .Invert start endPos complement =>
      let start_idx := start - 1
      let end_idx := endPos
      if end_idx > sequence.length then
        .error (.outOfRange "End position" endPos sequence.length)
      else
        let before := sequence.take start_idx
        let to_invert := sliceRange sequence start_idx end_idx
        let after := sequence.drop end_idx
        let processed : List Char :=
          if complement then (to_invert.reverse).map complement_base
          else to_invert.reverse
        let new_sequence := before ++ processed ++ after
        let inverted_length := end_idx - start_idx
        let operation_desc := if complement then "reverse complemented" else "inverted"
        let new_header := header ++ " [" ++ operation_desc ++ " " ++
          toString inverted_length ++ "bp at positions " ++ toString start ++ "-" ++
          toString endPos ++ "]"
        .ok (new_header, new_sequence)
  | .Duplicate start endPos position =>
      let start_idx := start - 1
      let end_idx := endPos
      let insert_idx := position - 1
      if end_idx > sequence.length then
        .error (.outOfRange "End position" endPos sequence.length)
      else if insert_idx > sequence.length then
        .error (.outOfRange "Insert position" position sequence.length)
      else
        let segment := sliceRange sequence start_idx end_idx
        let new_sequence := sequence.take insert_idx ++ segment ++ sequence.drop insert_idx
        let duplicated_length := end_idx - start_idx
        let new_header := header ++ " [duplicated " ++ toString duplicated_length ++
          "bp from positions " ++ toString start ++ "-" ++ toString endPos ++
          " to position " ++ toString position ++ "]"
        .ok (new_header, new_sequence)
  | .TandemDuplicate start endPos =>
      let start_idx := start - 1
      let end_idx := endPos
      if end_idx > sequence.length then
        .error (.outOfRange "End position" endPos sequence.length)
      else
        let segment := sliceRange sequence start_idx end_idx
        let new_sequence := sequence.take start_idx ++ segment ++ segment ++
          sequence.drop end_idx
        let duplicated_length := end_idx - start_idx
        let new_header := header ++ " [tandem duplicated " ++ toString duplicated_length ++
          "bp at positions " ++ toString start ++ "-" ++ toString endPos ++ "]"
        .ok (new_header, new_sequence)
  | .Copyback gend breakpoint backstart =>
      let breakpoint_idx := breakpoint - 1
      let backstart_idx := backstart - 1
      if breakpoint > sequence.length then
        .error (.outOfRange "Breakpoint" breakpoint sequence.length)
      else if backstart > sequence.length then
        .error (.outOfRange "Backstart" backstart sequence.length)
      else
        let new_sequence : List Char :=
          if gend = 5 then
            let kept_part := sequence.take (breakpoint_idx + 1)
            let copyback_part := sequence.take (backstart_idx + 1)
            let rc : List Char := (copyback_part.reverse).map complement_base
            kept_part ++ rc
          else
            let rev_comp_sequence : List Char := (sequence.reverse).map complement_base
            let kept_part := rev_comp_sequence.take (breakpoint_idx + 1)
            let copyback_part := rev_comp_sequence.take (backstart_idx + 1)
            let rc : List Char := (copyback_part.reverse).map complement_base
            kept_part ++ rc
        let operation_desc :=
          if gend = 5 then
            if backstart = breakpoint then
              "5\x27 copyback (snapback) at position " ++ toString breakpoint
            else
              "5\x27 copyback up to position " ++ toString breakpoint ++
                " then reverse complement of position " ++ toString backstart ++ " on"
          else
            if backstart = breakpoint then
              "3\x27 copyback (snapback) at position " ++ toString breakpoint ++
                " of reference revcomp"
            else
              "3\x27 copyback up to position " ++ toString breakpoint ++
                " of reference revcomp then reverse complement of position " ++
                toString backstart ++ " on"
        let new_header := header ++ " [" ++ operation_desc ++ "]"
        .ok (new_header, new_sequence)

/-- Reverse complement of a whole sequence: reverse the characters, then
complement each (as the Rust `chars().rev().map(complement_base)` does). -/
def reverse_complement (s : List Char) : List Char :=
  (s.reverse).map complement_base

/-! ### Shape lemmas: each arm of `apply_operation` under its bounds check -/

theorem delete_ok (hd : String) (s : List Char) (start endPos : Nat)
    (h : endPos ≤ s.length) :
    apply_operation hd s (.Delete start endPos) =
      .ok (hd ++ " [deleted " ++ toString (endPos - (start - 1)) ++ "bp at positions " ++
        toString start ++ "-" ++ toString endPos ++ "]",
        s.take (start - 1) ++ s.drop endPos) := by
  have hnot : ¬ (s.length < endPos) := by omega
  simp [apply_operation, hnot]

theorem insert_ok (hd : String) (s ins : List Char) (position : Nat)
    (h : position - 1 ≤ s.length) :
    apply_operation hd s (.Insert position ins) =
      .ok (hd ++ " [inserted " ++ toString ins.length ++ "bp \x27" ++ String.mk ins ++
        "\x27 at position " ++ toString position ++ "]",
        s.take (position - 1) ++ ins ++ s.drop (position - 1)) := by
  have hnot : ¬ (s.length < position - 1) := by omega
  simp [apply_operation, hnot]

theorem invert_ok (hd : String) (s : List Char) (start endPos : Nat) (complement : Bool)
    (h : endPos ≤ s.length) :
    apply_operation hd s (.Invert start endPos complement) =
      .ok (hd ++ " [" ++ (if complement then "reverse complemented" else "inverted") ++
        " " ++ toString (endPos - (start - 1)) ++ "bp at positions " ++ toString start ++
        "-" ++ toString endPos ++ "]",
        s.take (start - 1) ++
          (if complement then ((sliceRange s (start - 1) endPos).reverse).map complement_base
            else (sliceRange s (start - 1) endPos).reverse) ++
          s.drop endPos) := by
  have hnot : ¬ (s.length < endPos) := by omega
  simp [apply_operation, hnot]

theorem duplicate_ok (hd : String) (s : List Char) (start endPos position : Nat)
    (h : endPos ≤ s.length) (hp : position - 1 ≤ s.length) :
    apply_operation hd s (.Duplicate start endPos position) =
      .ok (hd ++ " [duplicated " ++ toString (endPos - (start - 1)) ++
        "bp from positions " ++ toString start ++ "-" ++ toString endPos ++
        " to position " ++ toString position ++ "]",
        s.take (position - 1) ++ sliceRange s (start - 1) endPos ++
          s.drop (position - 1)) := by
  have hnot : ¬ (s.length < endPos) := by omega
  have hnot2 : ¬ (s.length < position - 1) := by omega
  simp [apply_operation, hnot, hnot2]

theorem tandem_ok (hd : String) (s : List Char) (start endPos : Nat)
    (h : endPos ≤ s.length) :
    apply_operation hd s (.TandemDuplicate start endPos) =
      .ok (hd ++ " [tandem duplicated " ++ toString (endPos - (start - 1)) ++
        "bp at positions " ++ toString start ++ "-" ++ toString endPos ++ "]",
        s.take (start - 1) ++ sliceRange s (start - 1) endPos ++
          sliceRange s (start - 1) endPos ++ s.drop endPos) := by
  have hnot : ¬ (s.length < endPos) := by omega
  simp [apply_operation, hnot]

theorem copyback5_ok (hd : String) (s : List Char) (breakpoint backstart : Nat)
    (h1 : breakpoint ≤ s.length) (h2 : backstart ≤ s.length) :
    apply_operation hd s (.Copyback 5 breakpoint backstart) =
      .ok (hd ++ " [" ++
        (if backstart = breakpoint then
          "5\x27 copyback (snapback) at position " ++ toString breakpoint
         else
          "5\x27 copyback up to position " ++ toString breakpoint ++
            " then reverse complement of position " ++ toString backstart ++ " on") ++ "]",
        s.take (breakpoint - 1 + 1) ++
          ((s.take (backstart - 1 + 1)).reverse).map complement_base) := by
  have hnot : ¬ (s.length < breakpoint) := by omega
  have hnot2 : ¬ (s.length < backstart) := by omega
  simp [apply_operation, hnot, hnot2]

theorem copyback3_ok (hd : String) (s : List Char) (breakpoint backstart : Nat)
    (h1 : breakpoint ≤ s.length) (h2 : backstart ≤ s.length) :
    apply_operation hd s (.Copyback 3 breakpoint backstart) =
      .ok (hd ++ " [" ++
        (if backstart = breakpoint then
          "3\x27 copyback (snapback) at position " ++ toString breakpoint ++
            " of reference revcomp"
         else
          "3\x27 copyback up to position " ++ toString breakpoint ++
            " of reference revcomp then reverse complement of position " ++
            toString backstart ++ " on") ++ "]",
        (reverse_complement s).take (breakpoint - 1 + 1) ++
          (((reverse_complement s).take (backstart - 1 + 1)).reverse).map
            complement_base) := by
  have hnot : ¬ (s.length < breakpoint) := by omega
  have hnot2 : ¬ (s.length < backstart) := by omega
  simp [apply_operation, reverse_complement, hnot, hnot2]

theorem insert_err (hd : String) (s ins : List Char) (position : Nat)
    (h : s.length < position - 1) :
    apply_operation hd s (.Insert position ins) =
      .error (.outOfRange "Insert position" position s.length) := by
  simp [apply_operation, h]

theorem delete_err (hd : String) (s : List Char) (start endPos : Nat)
    (h : s.length < endPos) :
    apply_operation hd s (.Delete start endPos) =
      .error (.outOfRange "End position" endPos s.length) := by
  simp [apply_operation, h]

theorem invert_err (hd : String) (s : List Char) (start endPos : Nat) (complement : Bool)
    (h : s.length < endPos) :
    apply_operation hd s (.Invert start endPos complement) =
      .error (.outOfRange "End position" endPos s.length) := by
  simp [apply_operation, h]

/-! ### List and complement helper lemmas -/

theorem sliceRange_length (s : List Char) (i j : Nat) (h : j ≤ s.length) :
    (sliceRange s i j).length = j - i := by
  simp [sliceRange]
  omega

theorem sliceRange_subset (s : List Char) (i j : Nat) : sliceRange s i j ⊆ s :=
  (List.take_subset _ _).trans (List.drop_subset _ _)

theorem take_eq_take_append_sliceRange (s : List Char) (i j : Nat) (hij : i ≤ j) :
    s.take j = s.take i ++ sliceRange s i j := by
  unfold sliceRange
  rw [← List.take_add]
  congr 1
  omega

theorem eq_take_append_sliceRange_append_drop (s : List Char) (i j : Nat) (hij : i ≤ j) :
    s = s.take i ++ sliceRange s i j ++ s.drop j := by
  conv_lhs => rw [← List.take_append_drop j s]
  rw [take_eq_take_append_sliceRange s i j hij]

theorem complement_base_invol (c : Char) (h : c.toUpper = c) :
    complement_base (complement_base c) = c := by
  by_cases hA : c = 'A'
  · subst hA; decide
  by_cases hT : c = 'T'
  · subst hT; decide
  by_cases hC : c = 'C'
  · subst hC; decide
  by_cases hG : c = 'G'
  · subst hG; decide
  by_cases hN : c = 'N'
  · subst hN; decide
  have hc : complement_base c = c := by
    unfold complement_base
    rw [h]
    simp [hA, hT, hC, hG, hN]
  rw [hc, hc]

theorem revcomp_revcomp (l : List Char) (h : ∀ c ∈ l, c.toUpper = c) :
    ((((l.reverse).map complement_base).reverse).map complement_base) = l := by
  rw [List.map_reverse, List.map_map]
  have hcc : ∀ a ∈ l.reverse, (complement_base ∘ complement_base) a = id a := by
    intro a ha
    exact complement_base_invol a (h a (List.mem_reverse.mp ha))
  rw [List.map_congr_left hcc, List.map_id, List.reverse_reverse]

theorem splice_parts (s P : List Char) (i j : Nat) (hij : i ≤ j) (hj : j ≤ s.length)
    (hP : P.length = j - i) :
    (s.take i ++ P ++ s.drop j).take i = s.take i ∧
    (s.take i ++ P ++ s.drop j).drop j = s.drop j ∧
    sliceRange (s.take i ++ P ++ s.drop j) i j = P := by
  have hA : (s.take i).length = i := by
    simp
    omega
  refine ⟨?_, ?_, ?_⟩
  · rw [List.append_assoc]
    exact List.take_left' hA
  · exact List.drop_left' (by simp [hA, hP]; omega)
  · unfold sliceRange
    rw [List.append_assoc, List.drop_left' hA]
    exact List.take_left' hP
/-- C1: for 1 ≤ breakpoint ≤ len s and 1 ≤ backstart ≤ len s, the 5-prime
copyback produces take breakpoint s followed by the reverse complement of
take backstart s; in the snapback case backstart = breakpoint the result is
the palindromic hairpin take k s ++ reverse complement of take k s. -/
theorem copyback5_spec (hd : String) (s : List Char) (breakpoint backstart : Nat)
    (hb1 : 1 ≤ breakpoint) (hb2 : breakpoint ≤ s.length)
    (hk1 : 1 ≤ backstart) (hk2 : backstart ≤ s.length) :
    (∃ h2, apply_operation hd s (.Copyback 5 breakpoint backstart) =
      .ok (h2, s.take breakpoint ++ ((s.take backstart).reverse).map complement_base)) ∧
    (backstart = breakpoint →
      ∃ h2, apply_operation hd s (.Copyback 5 breakpoint backstart) =
        .ok (h2, s.take breakpoint ++
          ((s.take breakpoint).reverse).map complement_base)) := by
  have e := copyback5_ok hd s breakpoint backstart hb2 hk2
  rw [Nat.sub_add_cancel hb1, Nat.sub_add_cancel hk1] at e
  constructor
  · exact ⟨_, e⟩
  · intro hsnap
    subst hsnap
    exact ⟨_, e⟩

/-- C1 witness at the snapback instance breakpoint = backstart = 3 on ACGTAC. -/
theorem copyback5_spec_witness :
    (∃ h2, apply_operation ">r" "ACGTAC".toList (.Copyback 5 3 3) =
      .ok (h2, "ACGTAC".toList.take 3 ++
        (("ACGTAC".toList.take 3).reverse).map complement_base)) ∧
    ((3:Nat) = 3 →
      ∃ h2, apply_operation ">r" "ACGTAC".toList (.Copyback 5 3 3) =
        .ok (h2, "ACGTAC".toList.take 3 ++
          (("ACGTAC".toList.take 3).reverse).map complement_base)) :=
  copyback5_spec ">r" "ACGTAC".toList 3 3 (by decide) (by decide) (by decide) (by decide)

/-- C2: the 3-prime copyback on s produces exactly the 5-prime-style
construction applied to reverse_complement s: both equal
take breakpoint revcomp ++ reverse complement of take backstart revcomp. -/
theorem copyback3_refines (hd : String) (s : List Char) (breakpoint backstart : Nat)
    (hb1 : 1 ≤ breakpoint) (hb2 : breakpoint ≤ s.length)
    (hk1 : 1 ≤ backstart) (hk2 : backstart ≤ s.length) :
    ∃ h3 h5,
      apply_operation hd s (.Copyback 3 breakpoint backstart) =
        .ok (h3, (reverse_complement s).take breakpoint ++
          (((reverse_complement s).take backstart).reverse).map complement_base) ∧
      apply_operation hd (reverse_complement s) (.Copyback 5 breakpoint backstart) =
        .ok (h5, (reverse_complement s).take breakpoint ++
          (((reverse_complement s).take backstart).reverse).map complement_base) := by
  have hlen : (reverse_complement s).length = s.length := by
    simp [reverse_complement]
  have e3 := copyback3_ok hd s breakpoint backstart hb2 hk2
  have e5 := copyback5_ok hd (reverse_complement s) breakpoint backstart
    (by omega) (by omega)
  rw [Nat.sub_add_cancel hb1, Nat.sub_add_cancel hk1] at e3 e5
  exact ⟨_, _, e3, e5⟩

/-- C2 witness at breakpoint = 4, backstart = 2 on ACGTAC. -/
theorem copyback3_refines_witness :
    ∃ h3 h5,
      apply_operation ">r" "ACGTAC".toList (.Copyback 3 4 2) =
        .ok (h3, (reverse_complement "ACGTAC".toList).take 4 ++
          (((reverse_complement "ACGTAC".toList).take 2).reverse).map complement_base) ∧
      apply_operation ">r" (reverse_complement "ACGTAC".toList) (.Copyback 5 4 2) =
        .ok (h5, (reverse_complement "ACGTAC".toList).take 4 ++
          (((reverse_complement "ACGTAC".toList).take 2).reverse).map complement_base) :=
  copyback3_refines ">r" "ACGTAC".toList 4 2 (by decide) (by decide) (by decide) (by decide)

/-- C3 counterexample: on ACGTACGTAC, Delete(3,5) yields ACCGTAC (7 bases,
matching the deleted-length 3), not the ACACGTAC stated in the claim. -/
theorem delete_scenario_cex :
    apply_operation ">h" "ACGTACGTAC".toList (.Delete 3 5) =
      .ok (">h [deleted 3bp at positions 3-5]", "ACCGTAC".toList) ∧
    "ACCGTAC".toList ≠ "ACACGTAC".toList := by
  constructor
  · rfl
  · decide

/-- C3 amended: Delete start endPos returns take (start-1) s ++ drop endPos s
with provenance recording deleted length endPos - start + 1; the concrete
scenario Delete(3,5) on ACGTACGTAC yields ACCGTAC. -/
theorem delete_spec (hd : String) (s : List Char) (start endPos : Nat)
    (h1 : 1 ≤ start) (h2 : start ≤ endPos) (h3 : endPos ≤ s.length) :
    apply_operation hd s (.Delete start endPos) =
      .ok (hd ++ " [deleted " ++ toString (endPos - start + 1) ++ "bp at positions " ++
        toString start ++ "-" ++ toString endPos ++ "]",
        s.take (start - 1) ++ s.drop endPos) ∧
    apply_operation ">h" "ACGTACGTAC".toList (.Delete 3 5) =
      .ok (">h [deleted 3bp at positions 3-5]", "ACCGTAC".toList) := by
  constructor
  · have e := delete_ok hd s start endPos h3
    have harith : endPos - (start - 1) = endPos - start + 1 := by omega
    rw [harith] at e
    exact e
  · rfl

/-- C3 witness: the amended claim at Delete(3,5) on ACGTACGTAC. -/
theorem delete_spec_witness :
    apply_operation ">h" "ACGTACGTAC".toList (.Delete 3 5) =
      .ok (">h" ++ " [deleted " ++ toString ((5:Nat) - 3 + 1) ++ "bp at positions " ++
        toString (3:Nat) ++ "-" ++ toString (5:Nat) ++ "]",
        "ACGTACGTAC".toList.take (3 - 1) ++ "ACGTACGTAC".toList.drop 5) ∧
    apply_operation ">h" "ACGTACGTAC".toList (.Delete 3 5) =
      .ok (">h [deleted 3bp at positions 3-5]", "ACCGTAC".toList) :=
  delete_spec ">h" "ACGTACGTAC".toList 3 5 (by decide) (by decide) (by decide)
/-- C4: Invert splices back, between the unchanged flanks, the reversed
region (complement = false) or the reversed-and-complemented region
(complement = true): the result agrees with s before index start-1 and from
index endPos on, and its region [start-1, endPos) is the processed region. -/
theorem invert_spec (hd : String) (s : List Char) (start endPos : Nat)
    (complement : Bool)
    (h1 : 1 ≤ start) (h2 : start ≤ endPos) (h3 : endPos ≤ s.length) :
    ∃ hres r,
      apply_operation hd s (.Invert start endPos complement) = .ok (hres, r) ∧
      r.take (start - 1) = s.take (start - 1) ∧
      r.drop endPos = s.drop endPos ∧
      sliceRange r (start - 1) endPos =
        (if complement then ((sliceRange s (start - 1) endPos).reverse).map complement_base
          else (sliceRange s (start - 1) endPos).reverse) := by
  have hslen : (sliceRange s (start - 1) endPos).length = endPos - (start - 1) :=
    sliceRange_length s (start - 1) endPos h3
  have hPlen :
      (if complement then ((sliceRange s (start - 1) endPos).reverse).map complement_base
        else (sliceRange s (start - 1) endPos).reverse).length = endPos - (start - 1) := by
    cases complement <;> simp [hslen]
  obtain ⟨hts, hds, hss⟩ := splice_parts s
    (if complement then ((sliceRange s (start - 1) endPos).reverse).map complement_base
      else (sliceRange s (start - 1) endPos).reverse)
    (start - 1) endPos (by omega) h3 hPlen
  exact ⟨_, _, invert_ok hd s start endPos complement h3, hts, hds, hss⟩

/-- C4 witness: Invert(2,4) with complement on AACGT. -/
theorem invert_spec_witness :
    ∃ hres r,
      apply_operation ">w" "AACGT".toList (.Invert 2 4 true) = .ok (hres, r) ∧
      r.take (2 - 1) = "AACGT".toList.take (2 - 1) ∧
      r.drop 4 = "AACGT".toList.drop 4 ∧
      sliceRange r (2 - 1) 4 =
        (if true then ((sliceRange "AACGT".toList (2 - 1) 4).reverse).map complement_base
          else (sliceRange "AACGT".toList (2 - 1) 4).reverse) :=
  invert_spec ">w" "AACGT".toList 2 4 true (by decide) (by decide) (by decide)

/-- C5: Insert at position len(s)+1 appends at the end; Insert at any
position greater than len(s)+1 fails with an out-of-range error naming the
offending coordinate and the sequence length; Delete and Invert succeed at
endPos = len(s) and fail with out-of-range at endPos = len(s)+1. -/
theorem boundary_spec (hd : String) (s ins : List Char) (p start : Nat) :
    (∃ h2, apply_operation hd s (.Insert (s.length + 1) ins) = .ok (h2, s ++ ins)) ∧
    (s.length + 1 < p →
      apply_operation hd s (.Insert p ins) =
        .error (.outOfRange "Insert position" p s.length)) ∧
    (1 ≤ start → start ≤ s.length →
      ∃ h2 r, apply_operation hd s (.Delete start s.length) = .ok (h2, r)) ∧
    (apply_operation hd s (.Delete start (s.length + 1)) =
      .error (.outOfRange "End position" (s.length + 1) s.length)) ∧
    (∀ complement, 1 ≤ start → start ≤ s.length →
      ∃ h2 r, apply_operation hd s (.Invert start s.length complement) = .ok (h2, r)) ∧
    (∀ complement, apply_operation hd s (.Invert start (s.length + 1) complement) =
      .error (.outOfRange "End position" (s.length + 1) s.length)) := by
  refine ⟨?_, ?_, ?_, ?_, ?_, ?_⟩
  · have e := insert_ok hd s ins (s.length + 1) (by omega)
    simp only [Nat.add_sub_cancel, List.take_length, List.drop_length,
      List.append_nil] at e
    exact ⟨_, e⟩
  · intro hp
    exact insert_err hd s ins p (by omega)
  · intro hs1 hs2
    exact ⟨_, _, delete_ok hd s start s.length (le_refl _)⟩
  · exact delete_err hd s start (s.length + 1) (by omega)
  · intro complement hs1 hs2
    exact ⟨_, _, invert_ok hd s start s.length complement (le_refl _)⟩
  · intro complement
    exact invert_err hd s start (s.length + 1) complement (by omega)

/-- C5 witness: the boundary behaviors on ACGT with start 2, insert GG,
all inner hypotheses discharged at position 7. -/
theorem boundary_spec_witness :
    (∃ h2, apply_operation ">b" "ACGT".toList
      (.Insert ("ACGT".toList.length + 1) "GG".toList) =
      .ok (h2, "ACGT".toList ++ "GG".toList)) ∧
    (apply_operation ">b" "ACGT".toList (.Insert 7 "GG".toList) =
      .error (.outOfRange "Insert position" 7 "ACGT".toList.length)) ∧
    (∃ h2 r, apply_operation ">b" "ACGT".toList
      (.Delete 2 "ACGT".toList.length) = .ok (h2, r)) ∧
    (apply_operation ">b" "ACGT".toList (.Delete 2 ("ACGT".toList.length + 1)) =
      .error (.outOfRange "End position" ("ACGT".toList.length + 1)
        "ACGT".toList.length)) ∧
    (∃ h2 r, apply_operation ">b" "ACGT".toList
      (.Invert 2 "ACGT".toList.length true) = .ok (h2, r)) ∧
    (apply_operation ">b" "ACGT".toList
      (.Invert 2 ("ACGT".toList.length + 1) true) =
      .error (.outOfRange "End position" ("ACGT".toList.length + 1)
        "ACGT".toList.length)) :=
  ⟨(boundary_spec ">b" "ACGT".toList "GG".toList 7 2).1,
   (boundary_spec ">b" "ACGT".toList "GG".toList 7 2).2.1 (by decide),
   (boundary_spec ">b" "ACGT".toList "GG".toList 7 2).2.2.1 (by decide) (by decide),
   (boundary_spec ">b" "ACGT".toList "GG".toList 7 2).2.2.2.1,
   (boundary_spec ">b" "ACGT".toList "GG".toList 7 2).2.2.2.2.1 true (by decide)
     (by decide),
   (boundary_spec ">b" "ACGT".toList "GG".toList 7 2).2.2.2.2.2 true⟩

/-- C6: the length invariants for Delete, Insert, Duplicate, TandemDuplicate
and Invert under in-bounds coordinates. -/
theorem length_invariants (hd : String) (s ins : List Char)
    (start endPos position : Nat) :
    (1 ≤ start → start ≤ endPos → endPos ≤ s.length →
      ∃ h2 r, apply_operation hd s (.Delete start endPos) = .ok (h2, r) ∧
        r.length = s.length - (endPos - start + 1)) ∧
    (1 ≤ position → position ≤ s.length + 1 →
      ∃ h2 r, apply_operation hd s (.Insert position ins) = .ok (h2, r) ∧
        r.length = s.length + ins.length) ∧
    (1 ≤ start → start ≤ endPos → endPos ≤ s.length → 1 ≤ position →
        position ≤ s.length + 1 →
      ∃ h2 r, apply_operation hd s (.Duplicate start endPos position) = .ok (h2, r) ∧
        r.length = s.length + (endPos - start + 1)) ∧
    (1 ≤ start → start ≤ endPos → endPos ≤ s.length →
      ∃ h2 r, apply_operation hd s (.TandemDuplicate start endPos) = .ok (h2, r) ∧
        r.length = s.length + (endPos - start + 1)) ∧
    (∀ complement, 1 ≤ start → start ≤ endPos → endPos ≤ s.length →
      ∃ h2 r, apply_operation hd s (.Invert start endPos complement) = .ok (h2, r) ∧
        r.length = s.length) := by
  refine ⟨?_, ?_, ?_, ?_, ?_⟩
  · intro ha hb hc
    refine ⟨_, _, delete_ok hd s start endPos hc, ?_⟩
    simp
    omega
  · intro ha hb
    refine ⟨_, _, insert_ok hd s ins position (by omega), ?_⟩
    simp
    omega
  · intro ha hb hc hp1 hp2
    refine ⟨_, _, duplicate_ok hd s start endPos position hc (by omega), ?_⟩
    simp [sliceRange]
    omega
  · intro ha hb hc
    refine ⟨_, _, tandem_ok hd s start endPos hc, ?_⟩
    simp [sliceRange]
    omega
  · intro complement ha hb hc
    refine ⟨_, _, invert_ok hd s start endPos complement hc, ?_⟩
    cases complement <;> simp [sliceRange] <;> omega

/-- C6 witness: the length invariants on ATCGA with range 2-3, position 4
and insert GG, all hypotheses discharged. -/
theorem length_invariants_witness :
    (∃ h2 r, apply_operation ">l" "ATCGA".toList (.Delete 2 3) = .ok (h2, r) ∧
      r.length = "ATCGA".toList.length - (3 - 2 + 1)) ∧
    (∃ h2 r, apply_operation ">l" "ATCGA".toList (.Insert 4 "GG".toList) =
      .ok (h2, r) ∧ r.length = "ATCGA".toList.length + "GG".toList.length) ∧
    (∃ h2 r, apply_operation ">l" "ATCGA".toList (.Duplicate 2 3 4) = .ok (h2, r) ∧
      r.length = "ATCGA".toList.length + (3 - 2 + 1)) ∧
    (∃ h2 r, apply_operation ">l" "ATCGA".toList (.TandemDuplicate 2 3) =
      .ok (h2, r) ∧ r.length = "ATCGA".toList.length + (3 - 2 + 1)) ∧
    (∃ h2 r, apply_operation ">l" "ATCGA".toList (.Invert 2 3 true) =
      .ok (h2, r) ∧ r.length = "ATCGA".toList.length) :=
  ⟨(length_invariants ">l" "ATCGA".toList "GG".toList 2 3 4).1 (by decide)
     (by decide) (by decide),
   (length_invariants ">l" "ATCGA".toList "GG".toList 2 3 4).2.1 (by decide)
     (by decide),
   (length_invariants ">l" "ATCGA".toList "GG".toList 2 3 4).2.2.1 (by decide)
     (by decide) (by decide) (by decide) (by decide),
   (length_invariants ">l" "ATCGA".toList "GG".toList 2 3 4).2.2.2.1 (by decide)
     (by decide) (by decide),
   (length_invariants ">l" "ATCGA".toList "GG".toList 2 3 4).2.2.2.2 true
     (by decide) (by decide) (by decide)⟩

/-- C7: on an uppercase-normalized sequence, applying Invert twice with the
same coordinates and the same complement flag restores the original sequence
(double reverse and double reverse-complement are both the identity). -/
theorem invert_involution (hd : String) (s : List Char) (start endPos : Nat)
    (complement : Bool) (hupper : ∀ c ∈ s, c.toUpper = c)
    (h1 : 1 ≤ start) (h2 : start ≤ endPos) (h3 : endPos ≤ s.length) :
    ∃ hres r,
      apply_operation hd s (.Invert start endPos complement) = .ok (hres, r) ∧
      ∀ hd2, ∃ hres2,
        apply_operation hd2 r (.Invert start endPos complement) = .ok (hres2, s) := by
  have hslen : (sliceRange s (start - 1) endPos).length = endPos - (start - 1) :=
    sliceRange_length s (start - 1) endPos h3
  set P := (if complement then ((sliceRange s (start - 1) endPos).reverse).map
    complement_base else (sliceRange s (start - 1) endPos).reverse) with hPdef
  have hPlen : P.length = endPos - (start - 1) := by
    cases complement <;> simp [hPdef, hslen]
  obtain ⟨hts, hds, hss⟩ := splice_parts s P (start - 1) endPos (by omega) h3 hPlen
  have e1 := invert_ok hd s start endPos complement h3
  refine ⟨_, _, e1, ?_⟩
  intro hd2
  have hrlen : (s.take (start - 1) ++ P ++ s.drop endPos).length = s.length := by
    simp [hPlen]
    omega
  have e2 := invert_ok hd2 (s.take (start - 1) ++ P ++ s.drop endPos) start endPos
    complement (by omega)
  rw [hss, hts, hds] at e2
  have hmid : (if complement then (P.reverse).map complement_base else P.reverse) =
      sliceRange s (start - 1) endPos := by
    cases complement
    · simp [hPdef]
    · simp only [hPdef, if_true]
      exact revcomp_revcomp (sliceRange s (start - 1) endPos)
        (fun c hc => hupper c (sliceRange_subset s (start - 1) endPos hc))
  rw [hmid] at e2
  rw [← eq_take_append_sliceRange_append_drop s (start - 1) endPos (by omega)] at e2
  exact ⟨_, e2⟩

/-- C7 witness: reverse-complement inversion of region 2-4 of AACG applied
twice restores AACG. -/
theorem invert_involution_witness :
    ∃ hres r,
      apply_operation ">v" "AACG".toList (.Invert 2 4 true) = .ok (hres, r) ∧
      ∀ hd2, ∃ hres2,
        apply_operation hd2 r (.Invert 2 4 true) = .ok (hres2, "AACG".toList) :=
  invert_involution ">v" "AACG".toList 2 4 true (by decide) (by decide) (by decide)
    (by decide)

/-- C8: inserting ins at position p and then deleting the range
p to p + len(ins) - 1 from the result restores the original sequence. -/
theorem insert_delete_roundtrip (hd : String) (s ins : List Char) (p : Nat)
    (h1 : 1 ≤ p) (h2 : p ≤ s.length + 1) (hins : 1 ≤ ins.length) :
    ∃ hres r,
      apply_operation hd s (.Insert p ins) = .ok (hres, r) ∧
      ∀ hd2, ∃ hres2,
        apply_operation hd2 r (.Delete p (p + ins.length - 1)) = .ok (hres2, s) := by
  have e1 := insert_ok hd s ins p (by omega)
  refine ⟨_, _, e1, ?_⟩
  intro hd2
  have hA : (s.take (p - 1)).length = p - 1 := by
    simp
    omega
  have hrlen : (s.take (p - 1) ++ ins ++ s.drop (p - 1)).length =
      s.length + ins.length := by
    simp
    omega
  have e2 := delete_ok hd2 (s.take (p - 1) ++ ins ++ s.drop (p - 1)) p
    (p + ins.length - 1) (by omega)
  have ht : (s.take (p - 1) ++ ins ++ s.drop (p - 1)).take (p - 1) =
      s.take (p - 1) := by
    rw [List.append_assoc]
    exact List.take_left' hA
  have hdrop : (s.take (p - 1) ++ ins ++ s.drop (p - 1)).drop (p + ins.length - 1) =
      s.drop (p - 1) :=
    List.drop_left' (by simp [hA]; omega)
  rw [ht, hdrop, List.take_append_drop] at e2
  exact ⟨_, e2⟩

/-- C8 witness: insert GG at position 3 of ACGT, then delete positions 3-4. -/
theorem insert_delete_roundtrip_witness :
    ∃ hres r,
      apply_operation ">p" "ACGT".toList (.Insert 3 "GG".toList) = .ok (hres, r) ∧
      ∀ hd2, ∃ hres2,
        apply_operation hd2 r (.Delete 3 (3 + "GG".toList.length - 1)) =
          .ok (hres2, "ACGT".toList) :=
  insert_delete_roundtrip ">p" "ACGT".toList "GG".toList 3 (by decide) (by decide)
    (by decide)

/-- C9: TandemDuplicate start endPos returns the same sequence as Duplicate
start endPos (endPos+1): the flank before, the segment twice, and the flank
after. -/
theorem tandem_eq_duplicate (hd : String) (s : List Char) (start endPos : Nat)
    (h1 : 1 ≤ start) (h2 : start ≤ endPos) (h3 : endPos ≤ s.length) :
    ∃ ha hb,
      apply_operation hd s (.TandemDuplicate start endPos) =
        .ok (ha, s.take (start - 1) ++ sliceRange s (start - 1) endPos ++
          sliceRange s (start - 1) endPos ++ s.drop endPos) ∧
      apply_operation hd s (.Duplicate start endPos (endPos + 1)) =
        .ok (hb, s.take (start - 1) ++ sliceRange s (start - 1) endPos ++
          sliceRange s (start - 1) endPos ++ s.drop endPos) := by
  have e1 := tandem_ok hd s start endPos h3
  have e2 := duplicate_ok hd s start endPos (endPos + 1) h3 (by omega)
  rw [Nat.add_sub_cancel] at e2
  rw [take_eq_take_append_sliceRange s (start - 1) endPos (by omega)] at e2
  exact ⟨_, _, e1, e2⟩

/-- C9 witness: TandemDuplicate(2,3) and Duplicate(2,3,4) on ATCGA. -/
theorem tandem_eq_duplicate_witness :
    ∃ ha hb,
      apply_operation ">t" "ATCGA".toList (.TandemDuplicate 2 3) =
        .ok (ha, "ATCGA".toList.take (2 - 1) ++ sliceRange "ATCGA".toList (2 - 1) 3 ++
          sliceRange "ATCGA".toList (2 - 1) 3 ++ "ATCGA".toList.drop 3) ∧
      apply_operation ">t" "ATCGA".toList (.Duplicate 2 3 (3 + 1)) =
        .ok (hb, "ATCGA".toList.take (2 - 1) ++ sliceRange "ATCGA".toList (2 - 1) 3 ++
          sliceRange "ATCGA".toList (2 - 1) 3 ++ "ATCGA".toList.drop 3) :=
  tandem_eq_duplicate ">t" "ATCGA".toList 2 3 (by decide) (by decide) (by decide)

/-- C10: for gend 5 or 3 and in-bounds breakpoint and backstart, the copyback
result has length breakpoint + backstart. -/
theorem copyback_length (hd : String) (s : List Char) (gend breakpoint backstart : Nat)
    (hg : gend = 5 ∨ gend = 3)
    (h1 : 1 ≤ breakpoint) (h2 : breakpoint ≤ s.length)
    (h3 : 1 ≤ backstart) (h4 : backstart ≤ s.length) :
    ∃ hres r,
      apply_operation hd s (.Copyback gend breakpoint backstart) = .ok (hres, r) ∧
      r.length = breakpoint + backstart := by
  rcases hg with h | h <;> subst h
  · refine ⟨_, _, copyback5_ok hd s breakpoint backstart h2 h4, ?_⟩
    simp
    omega
  · refine ⟨_, _, copyback3_ok hd s breakpoint backstart h2 h4, ?_⟩
    simp [reverse_complement]
    omega

/-- C10 witness: the 3-prime copyback with breakpoint 4, backstart 2 on
ACGTAC has length 6. -/
theorem copyback_length_witness :
    ∃ hres r,
      apply_operation ">n" "ACGTAC".toList (.Copyback 3 4 2) = .ok (hres, r) ∧
      r.length = 4 + 2 :=
  copyback_length ">n" "ACGTAC".toList 3 4 2 (Or.inr rfl) (by decide) (by decide)
    (by decide) (by decide)
